import Mathlib

set_option maxRecDepth 8000

/-!
Shallow embedding of `src/types/src/auction/bid.rs` (the `Bid` entity of the
casper-node auction system) together with the byte-serialization codec it
relies on.  Machine integers are modelled as `Nat` with explicit bounds
(`U512` values are `Nat`s below `2 ^ 512`); fallible operations return
`Except`/`Option`.  The `bytesrepr` field codecs and the `U512` checked
arithmetic live outside the given source tree, so they are modelled from the
specification (each such definition carries a doc comment saying so).
-/

/-- Upper bound of the unsigned 512-bit range used by `U512`. -/
def U512Limit : Nat := 2 ^ 512

/-- Modelled from the spec: `U512::checked_add` — checked arithmetic that
fails (returns `none`) instead of wrapping when the sum leaves the unsigned
512-bit range.  The `U512` primitive itself is not under `src/`. -/
def checkedAdd (a b : Nat) : Option Nat :=
  if a + b < U512Limit then some (a + b) else none

/-- Modelled from the spec: `U512::checked_sub` — checked subtraction that
fails (returns `none`) on underflow, i.e. when the subtrahend exceeds the
minuend.  The `U512` primitive itself is not under `src/`. -/
def checkedSub (a b : Nat) : Option Nat :=
  if b ≤ a then some (a - b) else none

/-- Modelled from the spec: an unforgeable purse reference (`URef`), an
opaque, equality-comparable, encodable value — a 32-byte address plus an
access-rights byte.  The `URef` type is not under `src/`. -/
structure URef where
  addr : List Nat
  access_rights : Nat
deriving DecidableEq

/-- Modelled from the spec: a validator/delegator public key — totally
ordered, encodable, usable as a unique map key; a 32-byte value.  The
`PublicKey` type is not under `src/`. -/
structure PublicKey where
  bytes : List Nat
deriving DecidableEq

/-- Modelled from the spec: the delegation-rate bounded integer (a `u8`);
range validation is external, so it is a plain byte-sized `Nat` here. -/
abbrev DelegationRate := Nat

/-- Modelled from the spec: the external `Delegator` entity, which exposes
at least `staked_amount()` and is independently encodable/decodable.  Its
own internals are out of scope, so only the staked amount is carried. -/
structure Delegator where
  staked_amount : Nat
deriving DecidableEq

namespace Auction

/-- Error variants raised by the `Bid` entity
(`system_contract_errors::auction::Error`). -/
inductive Error where
  | ValidatorFundsLocked
  | InvalidAmount
deriving DecidableEq

end Auction

/-- An entry in a founding validator map (`Bid` in `bid.rs`).  The ordered
`BTreeMap<PublicKey, Delegator>` is embedded as a key-sorted association
list. -/
structure Bid where
  bonding_purse : URef
  staked_amount : Nat
  delegation_rate : DelegationRate
  release_timestamp_millis : Option Nat
  delegators : List (PublicKey × Delegator)
  reward : Nat
deriving DecidableEq

/-- `Bid::locked`: creates a new instance of a bid with locked funds. -/
def Bid.locked (bonding_purse : URef) (staked_amount : Nat)
    (release_timestamp_millis : Nat) : Bid :=
  { bonding_purse := bonding_purse
    staked_amount := staked_amount
    delegation_rate := 0
    release_timestamp_millis := some release_timestamp_millis
    delegators := []
    reward := 0 }

/-- `Bid::unlocked`: creates a new instance of a bid with unlocked funds. -/
def Bid.unlocked (bonding_purse : URef) (staked_amount : Nat)
    (delegation_rate : DelegationRate) : Bid :=
  { bonding_purse := bonding_purse
    staked_amount := staked_amount
    delegation_rate := delegation_rate
    release_timestamp_millis := none
    delegators := []
    reward := 0 }

/-- `Bid::is_locked`: returns `true` if the provided bid is locked. -/
def Bid.is_locked (b : Bid) : Bool :=
  b.release_timestamp_millis.isSome

/-- `Bid::decrease_stake`: decreases the stake of the provided bid.  The
Rust method mutates `&mut self` and returns a `Result`; here it returns the
result together with the updated state. -/
def Bid.decrease_stake (b : Bid) (amount : Nat) :
    Except Auction.Error Nat × Bid :=
  if b.is_locked then (Except.error Auction.Error.ValidatorFundsLocked, b)
  else
    match checkedSub b.staked_amount amount with
    | none => (Except.error Auction.Error.InvalidAmount, b)
    | some updated_staked_amount =>
        (Except.ok updated_staked_amount,
         { b with staked_amount := updated_staked_amount })

/-- `Bid::increase_stake`: increases the stake of the provided bid. -/
def Bid.increase_stake (b : Bid) (amount : Nat) :
    Except Auction.Error Nat × Bid :=
  match checkedAdd b.staked_amount amount with
  | none => (Except.error Auction.Error.InvalidAmount, b)
  | some updated_staked_amount =>
      (Except.ok updated_staked_amount,
       { b with staked_amount := updated_staked_amount })

/-- `Bid::increase_reward`: increases the seigniorage reward of the
provided bid. -/
def Bid.increase_reward (b : Bid) (amount : Nat) :
    Except Auction.Error Nat × Bid :=
  match checkedAdd b.reward amount with
  | none => (Except.error Auction.Error.InvalidAmount, b)
  | some updated_reward =>
      (Except.ok updated_reward, { b with reward := updated_reward })

/-- `Bid::zero_reward`: zeros the seigniorage reward of the provided bid. -/
def Bid.zero_reward (b : Bid) : Bid :=
  { b with reward := 0 }

/-- `Bid::with_delegation_rate`: updates the delegation rate of the
provided bid (the Rust method returns `&mut Self` for chaining; the updated
state is what matters). -/
def Bid.with_delegation_rate (b : Bid) (delegation_rate : DelegationRate) :
    Bid :=
  { b with delegation_rate := delegation_rate }

/-- `Bid::unlock`: unlocks the provided bid if the provided timestamp is
greater than or equal to the bid's release timestamp; returns `true` iff
the bid was unlocked, paired with the updated state. -/
def Bid.unlock (b : Bid) (era_end_timestamp_millis : Nat) : Bool × Bid :=
  match b.release_timestamp_millis with
  | none => (false, b)
  | some release_timestamp_millis =>
      if era_end_timestamp_millis < release_timestamp_millis then (false, b)
      else (true, { b with release_timestamp_millis := none })

/-- `Bid::total_staked_amount`: returns the total staked amount of
validator + all delegators, folding `checked_add` over the delegators in
key order and then adding the validator's own stake. -/
def Bid.total_staked_amount (b : Bid) : Except Auction.Error Nat :=
  match
    (b.delegators.foldl
        (fun maybe_a p => maybe_a.bind (fun a => checkedAdd a p.2.staked_amount))
        (some 0)).bind
      (fun delegators_sum => checkedAdd delegators_sum b.staked_amount)
  with
  | some total => Except.ok total
  | none => Except.error Auction.Error.InvalidAmount

/-- One of the entity's own operations on a `Bid` (§C4/§C9): the mutators
plus the read-only `total_staked_amount`. -/
inductive Op where
  | decreaseStake (amount : Nat)
  | increaseStake (amount : Nat)
  | increaseReward (amount : Nat)
  | zeroReward
  | withDelegationRate (rate : DelegationRate)
  | unlockAt (t : Nat)
  | totalStakedAmount

/-- State reached by running a single entity operation on a `Bid` (for the
fallible mutators this is the state component they leave behind; the
read-only query leaves the state untouched). -/
def Bid.applyOp (b : Bid) : Op → Bid
  | Op.decreaseStake amount => (b.decrease_stake amount).2
  | Op.increaseStake amount => (b.increase_stake amount).2
  | Op.increaseReward amount => (b.increase_reward amount).2
  | Op.zeroReward => b.zero_reward
  | Op.withDelegationRate rate => b.with_delegation_rate rate
  | Op.unlockAt t => (b.unlock t).2
  | Op.totalStakedAmount => b

/-- Plain (unchecked) sum of the delegators' staked amounts, used to state
what `total_staked_amount` computes. -/
def delegatorStakeSum (l : List (PublicKey × Delegator)) : Nat :=
  (l.map (fun p => p.2.staked_amount)).sum

/-! ### Byte-level helpers for the canonical codec -/

/-- Little-endian byte list of fixed width `w` for the value `n`. -/
def toLEBytesFixed : Nat → Nat → List Nat
  | 0, _ => []
  | w + 1, n => n % 256 :: toLEBytesFixed w (n / 256)

/-- Value of a little-endian byte list. -/
def fromLEBytes : List Nat → Nat
  | [] => 0
  | b :: bs => b + 256 * fromLEBytes bs

/-- Minimal (no trailing zero bytes) little-endian byte list of `n`, with a
structural fuel bound of `fuel` output bytes. -/
def minLEBytesAux : Nat → Nat → List Nat
  | 0, _ => []
  | fuel + 1, n => if n = 0 then [] else n % 256 :: minLEBytesAux fuel (n / 256)

/-- Minimal little-endian byte list of a `U512` value (at most 64 bytes). -/
def minLEBytes (n : Nat) : List Nat := minLEBytesAux 64 n

/-! ### Canonical codec, field by field.

The `bytesrepr` implementations for the field types are not under `src/`;
every encoder/decoder below is modelled from the spec (§4.2, §6): each
encoding is deterministic and self-delimiting, `decode` consumes a prefix
and returns the unconsumed remainder. -/

/-- Modelled from the spec: encoder for a `u8` field (delegation rate) —
one byte. -/
def encodeU8 (n : Nat) : List Nat := [n]

/-- Modelled from the spec: decoder for a `u8` field. -/
def decodeU8 : List Nat → Option (Nat × List Nat)
  | [] => none
  | b :: rest => some (b, rest)

/-- Modelled from the spec: encoder for a `u64` field (timestamp) — eight
little-endian bytes. -/
def encodeU64 (n : Nat) : List Nat := toLEBytesFixed 8 n

/-- Modelled from the spec: decoder for a `u64` field. -/
def decodeU64 (bs : List Nat) : Option (Nat × List Nat) :=
  if 8 ≤ bs.length then some (fromLEBytes (bs.take 8), bs.drop 8) else none

/-- Modelled from the spec: encoder for a `u32` length prefix (delegator
count) — four little-endian bytes. -/
def encodeU32 (n : Nat) : List Nat := toLEBytesFixed 4 n

/-- Modelled from the spec: decoder for a `u32` length prefix. -/
def decodeU32 (bs : List Nat) : Option (Nat × List Nat) :=
  if 4 ≤ bs.length then some (fromLEBytes (bs.take 4), bs.drop 4) else none

/-- Modelled from the spec: encoder for a `U512` field — a one-byte length
followed by that many minimal little-endian bytes. -/
def encodeU512 (n : Nat) : List Nat :=
  (minLEBytes n).length :: minLEBytes n

/-- Modelled from the spec: decoder for a `U512` field; rejects a length
byte above the 64-byte maximum or running past the input. -/
def decodeU512 (bs : List Nat) : Option (Nat × List Nat) :=
  match bs with
  | [] => none
  | len :: rest =>
      if len ≤ 64 ∧ len ≤ rest.length then
        some (fromLEBytes (rest.take len), rest.drop len)
      else none

/-- Modelled from the spec: encoder for a `URef` — the 32 address bytes
followed by the access-rights byte. -/
def encodeURef (u : URef) : List Nat := u.addr ++ [u.access_rights]

/-- Modelled from the spec: decoder for a `URef`. -/
def decodeURef (bs : List Nat) : Option (URef × List Nat) :=
  if 33 ≤ bs.length then
    some (⟨bs.take 32, (bs.drop 32).headD 0⟩, bs.drop 33)
  else none

/-- Modelled from the spec: encoder for a `PublicKey` — its 32 bytes. -/
def encodePublicKey (pk : PublicKey) : List Nat := pk.bytes

/-- Modelled from the spec: decoder for a `PublicKey`. -/
def decodePublicKey (bs : List Nat) : Option (PublicKey × List Nat) :=
  if 32 ≤ bs.length then some (⟨bs.take 32⟩, bs.drop 32) else none

/-- Modelled from the spec: encoder for a `Delegator` (its staked amount,
the only field in scope). -/
def encodeDelegator (d : Delegator) : List Nat :=
  encodeU512 d.staked_amount

/-- Modelled from the spec: decoder for a `Delegator`. -/
def decodeDelegator (bs : List Nat) : Option (Delegator × List Nat) :=
  (decodeU512 bs).map (fun p => (⟨p.1⟩, p.2))

/-- Modelled from the spec: encoder for `Option<u64>` (the lock state) — a
presence byte (`0` absent, `1` present) followed by the timestamp if
present. -/
def encodeOptU64 : Option Nat → List Nat
  | none => [0]
  | some t => 1 :: encodeU64 t

/-- Modelled from the spec: decoder for `Option<u64>`; an invalid presence
tag is a decode failure. -/
def decodeOptU64 : List Nat → Option (Option Nat × List Nat)
  | [] => none
  | tag :: rest =>
      if tag = 0 then some (none, rest)
      else if tag = 1 then (decodeU64 rest).map (fun p => (some p.1, p.2))
      else none

/-- Modelled from the spec: encoder for the delegators map — a `u32` count
prefix followed by the key-sorted sequence of (public key, delegator)
pairs. -/
def encodeDelegators (l : List (PublicKey × Delegator)) : List Nat :=
  encodeU32 l.length ++
    (l.map (fun p => encodePublicKey p.1 ++ encodeDelegator p.2)).flatten

/-- Modelled from the spec: decoder for `n` consecutive (public key,
delegator) pairs. -/
def decodeDelegatorEntries : Nat → List Nat → Option (List (PublicKey × Delegator) × List Nat)
  | 0, bs => some ([], bs)
  | n + 1, bs => do
      let (pk, bs) ← decodePublicKey bs
      let (d, bs) ← decodeDelegator bs
      let (rest, bs) ← decodeDelegatorEntries n bs
      some ((pk, d) :: rest, bs)

/-- Modelled from the spec: decoder for the delegators map. -/
def decodeDelegators (bs : List Nat) : Option (List (PublicKey × Delegator) × List Nat) := do
  let (n, bs) ← decodeU32 bs
  decodeDelegatorEntries n bs

/-- `Bid::to_bytes` (ToBytes impl in `bid.rs`): concatenation of the field
encodings in declared field order. -/
def Bid.to_bytes (b : Bid) : List Nat :=
  encodeURef b.bonding_purse ++
    encodeU512 b.staked_amount ++
    encodeU8 b.delegation_rate ++
    encodeOptU64 b.release_timestamp_millis ++
    encodeDelegators b.delegators ++
    encodeU512 b.reward

/-- `Bid::from_bytes` (FromBytes impl in `bid.rs`): sequential field-by-field
decoding, returning the value and the unconsumed remainder. -/
def Bid.from_bytes (bytes : List Nat) : Option (Bid × List Nat) := do
  let (bonding_purse, bytes) ← decodeURef bytes
  let (staked_amount, bytes) ← decodeU512 bytes
  let (delegation_rate, bytes) ← decodeU8 bytes
  let (release_timestamp_millis, bytes) ← decodeOptU64 bytes
  let (delegators, bytes) ← decodeDelegators bytes
  let (reward, bytes) ← decodeU512 bytes
  some
    ({ bonding_purse := bonding_purse
       staked_amount := staked_amount
       delegation_rate := delegation_rate
       release_timestamp_millis := release_timestamp_millis
       delegators := delegators
       reward := reward },
     bytes)

/-! ### Serialized lengths -/

/-- Modelled from the spec: exact encoded length of a `U512` field. -/
def u512SerializedLength (n : Nat) : Nat := 1 + (minLEBytes n).length

/-- Modelled from the spec: exact encoded length of the lock-state field. -/
def optU64SerializedLength : Option Nat → Nat
  | none => 1
  | some _ => 9

/-- Modelled from the spec: exact encoded length of the delegators map. -/
def delegatorsSerializedLength (l : List (PublicKey × Delegator)) : Nat :=
  4 + (l.map (fun p => 32 + u512SerializedLength p.2.staked_amount)).sum

/-- `Bid::serialized_length` (ToBytes impl in `bid.rs`): sum of the
serialized lengths of the six fields in declared order (a `URef` occupies
33 bytes, a `u8` one byte). -/
def Bid.serialized_length (b : Bid) : Nat :=
  33 + u512SerializedLength b.staked_amount + 1 +
    optU64SerializedLength b.release_timestamp_millis +
    delegatorsSerializedLength b.delegators +
    u512SerializedLength b.reward

/-! ### Validity of a `Bid` value.

These predicates express exactly the representability facts guaranteed by
the Rust types: byte fields hold bytes, `U512` values fit in 512 bits, a
`u64` timestamp fits in 64 bits, the map has a `u32`-sized cardinality and
is strictly sorted by key. -/

/-- Strict lexicographic order on byte lists (the total order on keys). -/
def bytesLt : List Nat → List Nat → Bool
  | [], [] => false
  | [], _ :: _ => true
  | _ :: _, [] => false
  | a :: as, b :: bs =>
      if a < b then true else if b < a then false else bytesLt as bs

/-- Strict key-sortedness of the delegators association list (the
`BTreeMap` iteration order). -/
def sortedByKey : List (PublicKey × Delegator) → Bool
  | [] => true
  | [_] => true
  | x :: y :: rest => bytesLt x.1.bytes y.1.bytes && sortedByKey (y :: rest)

/-- Validity of a `URef` value: 32 address bytes plus a rights byte. -/
def URef.validb (u : URef) : Bool :=
  u.addr.length = 32 && u.addr.all (fun b => b < 256) && u.access_rights < 256

/-- Validity of a `PublicKey` value: exactly 32 bytes. -/
def PublicKey.validb (pk : PublicKey) : Bool :=
  pk.bytes.length = 32 && pk.bytes.all (fun b => b < 256)

/-- Validity of a `Delegator` value: its stake is a `U512`. -/
def Delegator.validb (d : Delegator) : Bool :=
  d.staked_amount < U512Limit

/-- Validity of a `Bid` value: every field is representable in its Rust
type and the delegators are strictly key-sorted. -/
def Bid.valid (b : Bid) : Prop :=
  b.bonding_purse.validb = true ∧
  b.staked_amount < U512Limit ∧
  b.delegation_rate < 256 ∧
  b.release_timestamp_millis.all (fun t => decide (t < 2 ^ 64)) = true ∧
  b.delegators.length < 2 ^ 32 ∧
  sortedByKey b.delegators = true ∧
  b.delegators.all (fun p => p.1.validb && p.2.validb) = true ∧
  b.reward < U512Limit

instance (b : Bid) : Decidable b.valid := by
  unfold Bid.valid
  infer_instance

/-! ### Concrete sample values used to exercise the definitions -/

/-- Sample bonding purse (32 address bytes of `42`, rights byte `7`). -/
def samplePurse : URef := ⟨List.replicate 32 42, 7⟩

/-- Sample delegator public key. -/
def samplePk1 : PublicKey := ⟨List.replicate 32 3⟩

/-- Second sample delegator public key, strictly above `samplePk1`. -/
def samplePk2 : PublicKey := ⟨4 :: List.replicate 31 3⟩

/-- Sample bid: locked with release timestamp `1000`, own stake `100`,
two delegators staking `30` and `70`, reward `2`. -/
def sampleBid : Bid :=
  { bonding_purse := samplePurse
    staked_amount := 100
    delegation_rate := 5
    release_timestamp_millis := some 1000
    delegators := [(samplePk1, ⟨30⟩), (samplePk2, ⟨70⟩)]
    reward := 2 }

/-- Sample unlocked bid with the same contents. -/
def sampleUnlockedBid : Bid :=
  { sampleBid with release_timestamp_millis := none }

/-- Locked sample bid whose stake and reward sit at the top of the `U512`
range, used to exercise the overflow error paths. -/
def sampleMaxBid : Bid :=
  { bonding_purse := samplePurse
    staked_amount := U512Limit - 1
    delegation_rate := 0
    release_timestamp_millis := some 1000
    delegators := []
    reward := U512Limit - 1 }

/-! ### Round-trip lemmas for the field codecs -/

theorem length_toLEBytesFixed : ∀ (w n : Nat), (toLEBytesFixed w n).length = w
  | 0, _ => rfl
  | w + 1, n => by simp [toLEBytesFixed, length_toLEBytesFixed w]

theorem fromLE_toLE : ∀ (w n : Nat), n < 256 ^ w →
    fromLEBytes (toLEBytesFixed w n) = n
  | 0, n, h => by
      simp [toLEBytesFixed, fromLEBytes]
      omega
  | w + 1, n, h => by
      have hd : n / 256 < 256 ^ w := by
        rw [Nat.div_lt_iff_lt_mul (by norm_num)]
        rw [pow_succ] at h
        exact h
      simp [toLEBytesFixed, fromLEBytes, fromLE_toLE w (n / 256) hd]
      omega

theorem length_minLEBytesAux : ∀ (fuel n : Nat),
    (minLEBytesAux fuel n).length ≤ fuel
  | 0, _ => Nat.le_refl 0
  | fuel + 1, n => by
      by_cases h0 : n = 0
      · simp [minLEBytesAux, h0]
      · simp only [minLEBytesAux, h0, if_false, List.length_cons]
        exact Nat.succ_le_succ (length_minLEBytesAux fuel (n / 256))

theorem fromLE_minLEBytesAux : ∀ (fuel n : Nat), n < 256 ^ fuel →
    fromLEBytes (minLEBytesAux fuel n) = n
  | 0, n, h => by
      simp [minLEBytesAux, fromLEBytes]
      omega
  | fuel + 1, n, h => by
      by_cases h0 : n = 0
      · simp [minLEBytesAux, h0, fromLEBytes]
      · have hd : n / 256 < 256 ^ fuel := by
          rw [Nat.div_lt_iff_lt_mul (by norm_num)]
          rw [pow_succ] at h
          exact h
        simp [minLEBytesAux, h0, fromLEBytes,
          fromLE_minLEBytesAux fuel (n / 256) hd]
        omega

theorem decodeU64_encodeU64 (n : Nat) (rest : List Nat) (h : n < 2 ^ 64) :
    decodeU64 (encodeU64 n ++ rest) = some (n, rest) := by
  have hlen : (encodeU64 n).length = 8 := length_toLEBytesFixed 8 n
  unfold decodeU64
  rw [if_pos (by simp [hlen]), List.take_left' hlen, List.drop_left' hlen]
  rw [encodeU64, fromLE_toLE 8 n (by norm_num at h ⊢; omega)]

theorem decodeU32_encodeU32 (n : Nat) (rest : List Nat) (h : n < 2 ^ 32) :
    decodeU32 (encodeU32 n ++ rest) = some (n, rest) := by
  have hlen : (encodeU32 n).length = 4 := length_toLEBytesFixed 4 n
  unfold decodeU32
  rw [if_pos (by simp [hlen]), List.take_left' hlen, List.drop_left' hlen]
  rw [encodeU32, fromLE_toLE 4 n (by norm_num at h ⊢; omega)]

theorem decodeU512_encodeU512 (n : Nat) (rest : List Nat) (h : n < U512Limit) :
    decodeU512 (encodeU512 n ++ rest) = some (n, rest) := by
  have h256 : n < 256 ^ 64 := by
    have : (256 : Nat) ^ 64 = 2 ^ 512 := by norm_num
    rw [this]
    exact h
  unfold encodeU512 decodeU512
  simp only [List.cons_append]
  rw [if_pos ⟨length_minLEBytesAux 64 n, by simp⟩]
  rw [List.take_left' rfl, List.drop_left' rfl]
  rw [minLEBytes, fromLE_minLEBytesAux 64 n h256]

theorem optionBind_some {α β : Type} (x : α) (f : α → Option β) :
    Bind.bind (some x) f = f x := rfl

theorem decodeURef_encodeURef (u : URef) (rest : List Nat)
    (h : u.validb = true) :
    decodeURef (encodeURef u ++ rest) = some (u, rest) := by
  have haddr : u.addr.length = 32 := by
    simp [URef.validb] at h
    exact h.1.1
  have h33 : (u.addr ++ [u.access_rights]).length = 33 := by simp [haddr]
  have e1 : ((encodeURef u ++ rest).take 32) = u.addr := by
    rw [encodeURef, List.append_assoc]
    exact List.take_left' haddr
  have e2 : ((encodeURef u ++ rest).drop 32) = u.access_rights :: rest := by
    rw [encodeURef, List.append_assoc]
    exact List.drop_left' haddr
  have e3 : ((encodeURef u ++ rest).drop 33) = rest := by
    rw [encodeURef]
    exact List.drop_left' h33
  have hlen : 33 ≤ (encodeURef u ++ rest).length := by
    simp [encodeURef, haddr]
    omega
  unfold decodeURef
  rw [if_pos hlen, e1, e2, e3]
  rfl

theorem decodePublicKey_encodePublicKey (pk : PublicKey) (rest : List Nat)
    (h : pk.validb = true) :
    decodePublicKey (encodePublicKey pk ++ rest) = some (pk, rest) := by
  have hlen : pk.bytes.length = 32 := by
    simp [PublicKey.validb] at h
    exact h.1
  unfold decodePublicKey encodePublicKey
  rw [if_pos (by simp [hlen]), List.take_left' hlen, List.drop_left' hlen]

theorem decodeDelegator_encodeDelegator (d : Delegator) (rest : List Nat)
    (h : d.validb = true) :
    decodeDelegator (encodeDelegator d ++ rest) = some (d, rest) := by
  have hs : d.staked_amount < U512Limit := by
    simpa [Delegator.validb] using h
  unfold decodeDelegator encodeDelegator
  rw [decodeU512_encodeU512 d.staked_amount rest hs]
  rfl

theorem decodeOptU64_encodeOptU64 (o : Option Nat) (rest : List Nat)
    (h : o.all (fun t => decide (t < 2 ^ 64)) = true) :
    decodeOptU64 (encodeOptU64 o ++ rest) = some (o, rest) := by
  cases o with
  | none => simp [encodeOptU64, decodeOptU64]
  | some t =>
      have ht : t < 2 ^ 64 := by simpa [Option.all] using h
      simp [encodeOptU64, decodeOptU64, decodeU64_encodeU64 t rest ht]

theorem decodeDelegatorEntries_encode (l : List (PublicKey × Delegator))
    (rest : List Nat)
    (h : l.all (fun p => p.1.validb && p.2.validb) = true) :
    decodeDelegatorEntries l.length
      ((l.map (fun p => encodePublicKey p.1 ++ encodeDelegator p.2)).flatten
        ++ rest) = some (l, rest) := by
  induction l with
  | nil => simp [decodeDelegatorEntries]
  | cons p l ih =>
      simp only [List.all_cons, Bool.and_eq_true] at h
      obtain ⟨⟨hpk, hd⟩, hl⟩ := h
      simp only [List.map_cons, List.flatten_cons, List.length_cons,
        List.append_assoc]
      rw [decodeDelegatorEntries]
      rw [decodePublicKey_encodePublicKey p.1 _ hpk]
      simp only [optionBind_some]
      rw [decodeDelegator_encodeDelegator p.2 _ hd]
      simp only [optionBind_some]
      rw [ih hl]
      rfl

theorem decodeDelegators_encodeDelegators (l : List (PublicKey × Delegator))
    (rest : List Nat) (hc : l.length < 2 ^ 32)
    (h : l.all (fun p => p.1.validb && p.2.validb) = true) :
    decodeDelegators (encodeDelegators l ++ rest) = some (l, rest) := by
  unfold decodeDelegators encodeDelegators
  rw [List.append_assoc, decodeU32_encodeU32 l.length _ hc]
  simp only [optionBind_some]
  rw [decodeDelegatorEntries_encode l rest h]

theorem decodeU8_encodeU8 (n : Nat) (rest : List Nat) :
    decodeU8 (encodeU8 n ++ rest) = some (n, rest) := rfl

theorem decodeU512_encodeU512_nil (n : Nat) (h : n < U512Limit) :
    decodeU512 (encodeU512 n) = some (n, []) := by
  rw [← List.append_nil (encodeU512 n), decodeU512_encodeU512 n [] h]

/-- Claim C1: for every valid `Bid` value `x`, decoding the bytes produced by
encoding `x` succeeds and yields exactly `x` together with an empty
remainder: `from_bytes (to_bytes x) = some (x, [])`. -/
theorem bid_roundtrip (b : Bid) (h : b.valid) :
    Bid.from_bytes (Bid.to_bytes b) = some (b, []) := by
  obtain ⟨hpurse, hstake, _, hts, hcount, _, hall, hreward⟩ := h
  unfold Bid.to_bytes Bid.from_bytes
  simp only [List.append_assoc]
  rw [decodeURef_encodeURef _ _ hpurse]
  simp only [optionBind_some]
  rw [decodeU512_encodeU512 _ _ hstake]
  simp only [optionBind_some]
  rw [decodeU8_encodeU8]
  simp only [optionBind_some]
  rw [decodeOptU64_encodeOptU64 _ _ hts]
  simp only [optionBind_some]
  rw [decodeDelegators_encodeDelegators _ _ hcount hall]
  simp only [optionBind_some]
  rw [decodeU512_encodeU512_nil _ hreward]
  rfl

set_option maxRecDepth 4000 in
/-- Witness for C1 at the concrete `sampleBid`. -/
theorem bid_roundtrip_witness :
    sampleBid.valid ∧ Bid.from_bytes (Bid.to_bytes sampleBid) = some (sampleBid, []) :=
  ⟨by decide, bid_roundtrip sampleBid (by decide)⟩

/-! ### Length accuracy of the codec -/

theorem length_encodeU512 (n : Nat) :
    (encodeU512 n).length = u512SerializedLength n := by
  simp [encodeU512, u512SerializedLength]
  omega

theorem length_encodeOptU64 (o : Option Nat) :
    (encodeOptU64 o).length = optU64SerializedLength o := by
  cases o with
  | none => rfl
  | some t =>
      simp [encodeOptU64, optU64SerializedLength, encodeU64,
        length_toLEBytesFixed]

theorem length_encodeDelegators (l : List (PublicKey × Delegator))
    (hall : l.all (fun p => p.1.validb && p.2.validb) = true) :
    (encodeDelegators l).length = delegatorsSerializedLength l := by
  induction l with
  | nil => rfl
  | cons p l ih =>
      simp only [List.all_cons, Bool.and_eq_true] at hall
      obtain ⟨⟨hpk, _⟩, hl⟩ := hall
      have hpkl : p.1.bytes.length = 32 := by
        simp [PublicKey.validb] at hpk
        exact hpk.1
      have hih := ih hl
      simp [encodeDelegators, delegatorsSerializedLength, encodePublicKey,
        encodeDelegator, encodeU512, u512SerializedLength, encodeU32,
        length_toLEBytesFixed, hpkl] at hih ⊢
      omega

/-- Claim C8: for every valid `Bid` value `x`, the reported serialized length
equals the length in bytes of the encoding:
`serialized_length x = (to_bytes x).length`. -/
theorem bid_serialized_length_accurate (b : Bid) (h : b.valid) :
    b.serialized_length = (Bid.to_bytes b).length := by
  obtain ⟨hpurse, _, _, _, _, _, hall, _⟩ := h
  have haddr : b.bonding_purse.addr.length = 32 := by
    simp [URef.validb] at hpurse
    exact hpurse.1.1
  have hu : (encodeURef b.bonding_purse).length = 33 := by
    simp [encodeURef, haddr]
  simp [Bid.to_bytes, Bid.serialized_length, hu, length_encodeU512,
    length_encodeOptU64, length_encodeDelegators _ hall, encodeU8]
  omega

set_option maxRecDepth 4000 in
/-- Witness for C8 at the concrete `sampleBid`. -/
theorem bid_serialized_length_accurate_witness :
    sampleBid.valid ∧
      sampleBid.serialized_length = (Bid.to_bytes sampleBid).length :=
  ⟨by decide, bid_serialized_length_accurate sampleBid (by decide)⟩

/-! ### Stake, reward and lock-state mutators -/

/-- Claim C2: `decrease_stake(amount)` fails with `ValidatorFundsLocked` if the
bid is locked; otherwise it fails with `InvalidAmount` if
`amount > staked_amount`; otherwise it sets `staked_amount` to
`staked_amount - amount` and returns that new amount, leaving the bid
unchanged on both error paths. -/
theorem decrease_stake_spec (b : Bid) (amount : Nat) :
    b.decrease_stake amount =
      if b.is_locked then
        (Except.error Auction.Error.ValidatorFundsLocked, b)
      else if b.staked_amount < amount then
        (Except.error Auction.Error.InvalidAmount, b)
      else
        (Except.ok (b.staked_amount - amount),
         { b with staked_amount := b.staked_amount - amount }) := by
  by_cases hl : b.is_locked
  · simp [Bid.decrease_stake, hl]
  · by_cases hle : amount ≤ b.staked_amount
    · have hnlt : ¬ b.staked_amount < amount := by omega
      simp [Bid.decrease_stake, checkedSub, hl, hle, hnlt]
    · have hlt : b.staked_amount < amount := by omega
      simp [Bid.decrease_stake, checkedSub, hl, hle, hlt]

/-- Claim C3: `unlock(now)` is a no-op returning `false` on an already-unlocked
bid, a no-op returning `false` on a bid locked with `release > now`, and
transitions the bid to unlocked returning `true` when `now ≥ release`. -/
theorem unlock_spec (b : Bid) (t : Nat) :
    (b.release_timestamp_millis = none → b.unlock t = (false, b)) ∧
    (∀ r, b.release_timestamp_millis = some r → t < r →
      b.unlock t = (false, b)) ∧
    (∀ r, b.release_timestamp_millis = some r → r ≤ t →
      b.unlock t = (true, { b with release_timestamp_millis := none })) := by
  refine ⟨fun hn => ?_, fun r hr hlt => ?_, fun r hr hge => ?_⟩
  · simp [Bid.unlock, hn]
  · simp [Bid.unlock, hr, hlt]
  · have : ¬ t < r := by omega
    simp [Bid.unlock, hr, this]

/-- Witness for C3: the spec's own example, a bid locked with
`release = 1000`: `unlock 999` is a no-op returning `false`, `unlock 1000`
unlocks and returns `true`, and a further `unlock` is a no-op. -/
theorem unlock_spec_witness :
    sampleBid.unlock 999 = (false, sampleBid) ∧
      sampleBid.unlock 1000 =
        (true, { sampleBid with release_timestamp_millis := none }) ∧
      ({ sampleBid with release_timestamp_millis := none } : Bid).unlock 5000 =
        (false, { sampleBid with release_timestamp_millis := none }) :=
  ⟨(unlock_spec sampleBid 999).2.1 1000 rfl (by decide),
   (unlock_spec sampleBid 1000).2.2 1000 rfl (by decide),
   (unlock_spec { sampleBid with release_timestamp_millis := none } 5000).1
     rfl⟩

/-- Claim C7: `increase_stake(amount)` fails with `InvalidAmount` exactly when
`staked_amount + amount` leaves the unsigned 512-bit range and otherwise
stores and returns the sum; likewise `increase_reward(amount)` is a checked
add on `reward`. -/
theorem increase_stake_reward_checked (b : Bid) (amount : Nat) :
    (b.increase_stake amount =
       if b.staked_amount + amount < U512Limit then
         (Except.ok (b.staked_amount + amount),
          { b with staked_amount := b.staked_amount + amount })
       else (Except.error Auction.Error.InvalidAmount, b)) ∧
    (b.increase_reward amount =
       if b.reward + amount < U512Limit then
         (Except.ok (b.reward + amount), { b with reward := b.reward + amount })
       else (Except.error Auction.Error.InvalidAmount, b)) := by
  constructor
  · by_cases hov : b.staked_amount + amount < U512Limit
    · simp [Bid.increase_stake, checkedAdd, hov]
    · simp [Bid.increase_stake, checkedAdd, hov]
  · by_cases hov : b.reward + amount < U512Limit
    · simp [Bid.increase_reward, checkedAdd, hov]
    · simp [Bid.increase_reward, checkedAdd, hov]

/-- Claim C5: whenever `decrease_stake`, `increase_stake` or `increase_reward`
returns an error, the entire `Bid` state is exactly what it was before the
call — no partial mutation occurs on the error path. -/
theorem error_leaves_state_unchanged (b : Bid) (amount : Nat) :
    (∀ e, (b.decrease_stake amount).1 = Except.error e →
      (b.decrease_stake amount).2 = b) ∧
    (∀ e, (b.increase_stake amount).1 = Except.error e →
      (b.increase_stake amount).2 = b) ∧
    (∀ e, (b.increase_reward amount).1 = Except.error e →
      (b.increase_reward amount).2 = b) := by
  refine ⟨fun e he => ?_, fun e he => ?_, fun e he => ?_⟩
  · by_cases hl : b.is_locked
    · simp [Bid.decrease_stake, hl]
    · cases hsub : checkedSub b.staked_amount amount with
      | none => simp [Bid.decrease_stake, hl, hsub]
      | some u => simp [Bid.decrease_stake, hl, hsub] at he
  · cases hadd : checkedAdd b.staked_amount amount with
    | none => simp [Bid.increase_stake, hadd]
    | some u => simp [Bid.increase_stake, hadd] at he
  · cases hadd : checkedAdd b.reward amount with
    | none => simp [Bid.increase_reward, hadd]
    | some u => simp [Bid.increase_reward, hadd] at he

set_option maxRecDepth 4000 in
/-- Witness for C5 at `sampleMaxBid`: a locked decrease fails
`ValidatorFundsLocked` and both increases overflow with `InvalidAmount`,
each leaving the state unchanged. -/
theorem error_leaves_state_unchanged_witness :
    (sampleMaxBid.decrease_stake 1).2 = sampleMaxBid ∧
      (sampleMaxBid.increase_stake 1).2 = sampleMaxBid ∧
      (sampleMaxBid.increase_reward 1).2 = sampleMaxBid :=
  ⟨(error_leaves_state_unchanged sampleMaxBid 1).1
      Auction.Error.ValidatorFundsLocked (by rfl),
   (error_leaves_state_unchanged sampleMaxBid 1).2.1
      Auction.Error.InvalidAmount (by rfl),
   (error_leaves_state_unchanged sampleMaxBid 1).2.2
      Auction.Error.InvalidAmount (by rfl)⟩

/-! ### Aggregation of the total staked amount -/

theorem foldl_checkedAdd_none (l : List (PublicKey × Delegator)) :
    l.foldl
      (fun maybe_a p => maybe_a.bind (fun a => checkedAdd a p.2.staked_amount))
      none = none := by
  induction l with
  | nil => rfl
  | cons p l ih => simpa using ih

theorem foldl_checkedAdd_characterize :
    ∀ (l : List (PublicKey × Delegator)) (acc own : Nat),
    ((l.foldl
        (fun maybe_a p => maybe_a.bind (fun a => checkedAdd a p.2.staked_amount))
        (some acc)).bind
      (fun s => checkedAdd s own)) =
      if acc + delegatorStakeSum l + own < U512Limit then
        some (acc + delegatorStakeSum l + own)
      else none
  | [], acc, own => by
      simp [delegatorStakeSum, checkedAdd]
  | p :: l, acc, own => by
      by_cases hstep : acc + p.2.staked_amount < U512Limit
      · have ih := foldl_checkedAdd_characterize l (acc + p.2.staked_amount) own
        simp only [List.foldl_cons, Option.some_bind]
        rw [show checkedAdd acc p.2.staked_amount =
              some (acc + p.2.staked_amount) from by simp [checkedAdd, hstep]]
        rw [ih]
        have harith : acc + p.2.staked_amount + delegatorStakeSum l + own =
            acc + delegatorStakeSum (p :: l) + own := by
          simp [delegatorStakeSum]
          omega
        rw [harith]
      · have hfold := foldl_checkedAdd_none l
        have hge : ¬ acc + delegatorStakeSum (p :: l) + own < U512Limit := by
          have : delegatorStakeSum (p :: l) =
              p.2.staked_amount + delegatorStakeSum l := by
            simp [delegatorStakeSum]
          omega
        simp only [List.foldl_cons, Option.some_bind]
        rw [show checkedAdd acc p.2.staked_amount = none from by
              simp [checkedAdd, hstep]]
        rw [hfold]
        simp [hge]

/-- Claim C6: `total_staked_amount()` returns `Ok` of the sum of the validator's
own stake and every delegator's stake when that sum stays inside the
unsigned 512-bit range, and `Err InvalidAmount` as soon as the checked
summation would overflow. -/
theorem total_staked_amount_spec (b : Bid) :
    b.total_staked_amount =
      if b.staked_amount + delegatorStakeSum b.delegators < U512Limit then
        Except.ok (b.staked_amount + delegatorStakeSum b.delegators)
      else Except.error Auction.Error.InvalidAmount := by
  unfold Bid.total_staked_amount
  rw [foldl_checkedAdd_characterize b.delegators 0 b.staked_amount]
  have harith : 0 + delegatorStakeSum b.delegators + b.staked_amount =
      b.staked_amount + delegatorStakeSum b.delegators := by omega
  rw [harith]
  by_cases h : b.staked_amount + delegatorStakeSum b.delegators < U512Limit
  · simp [h]
  · simp [h]

/-! ### The lock lifecycle and frame conditions -/

theorem applyOp_preserves_unlocked (b : Bid) (op : Op)
    (h : b.is_locked = false) :
    (b.applyOp op).is_locked = false := by
  cases op with
  | decreaseStake amount =>
      simp only [Bid.applyOp, Bid.decrease_stake, h]
      cases checkedSub b.staked_amount amount <;>
        simp [Bid.is_locked] at h ⊢ <;> exact h
  | increaseStake amount =>
      simp only [Bid.applyOp, Bid.increase_stake]
      cases checkedAdd b.staked_amount amount <;>
        simp [Bid.is_locked] at h ⊢ <;> exact h
  | increaseReward amount =>
      simp only [Bid.applyOp, Bid.increase_reward]
      cases checkedAdd b.reward amount <;>
        simp [Bid.is_locked] at h ⊢ <;> exact h
  | zeroReward => simpa [Bid.applyOp, Bid.zero_reward, Bid.is_locked] using h
  | withDelegationRate rate =>
      simpa [Bid.applyOp, Bid.with_delegation_rate, Bid.is_locked] using h
  | unlockAt t =>
      simp only [Bid.applyOp, Bid.unlock]
      simp [Bid.is_locked] at h
      simp [h, Bid.is_locked]
  | totalStakedAmount => exact h

/-- Claim C4: once a bid is unlocked, no sequence of the entity's own operations
(`decrease_stake`, `increase_stake`, `increase_reward`, `zero_reward`,
`with_delegation_rate`, `unlock`, `total_staked_amount`) ever makes it
locked again. -/
theorem unlocked_stays_unlocked (b : Bid) (h : b.is_locked = false)
    (ops : List Op) : (ops.foldl Bid.applyOp b).is_locked = false := by
  induction ops generalizing b with
  | nil => exact h
  | cons op ops ih =>
      exact ih (b.applyOp op) (applyOp_preserves_unlocked b op h)

set_option maxRecDepth 4000 in
/-- Witness for C4: the unlocked sample bid stays unlocked across a
concrete operation sequence. -/
theorem unlocked_stays_unlocked_witness :
    sampleUnlockedBid.is_locked = false ∧
      (([Op.increaseStake 5, Op.decreaseStake 40, Op.unlockAt 3,
          Op.zeroReward, Op.withDelegationRate 9,
          Op.totalStakedAmount].foldl Bid.applyOp
          sampleUnlockedBid)).is_locked = false :=
  ⟨by decide,
   unlocked_stays_unlocked sampleUnlockedBid (by decide)
     [Op.increaseStake 5, Op.decreaseStake 40, Op.unlockAt 3,
      Op.zeroReward, Op.withDelegationRate 9, Op.totalStakedAmount]⟩

/-- Claim C9: while a bid is locked, no entity operation decreases its staked
amount — stake may only increase while locked. -/
theorem locked_stake_never_decreases (b : Bid) (op : Op)
    (h : b.is_locked = true) :
    b.staked_amount ≤ (b.applyOp op).staked_amount := by
  cases op with
  | decreaseStake amount => simp [Bid.applyOp, Bid.decrease_stake, h]
  | increaseStake amount =>
      simp only [Bid.applyOp, Bid.increase_stake]
      cases hadd : checkedAdd b.staked_amount amount with
      | none => simp
      | some u =>
          have hu : u = b.staked_amount + amount := by
            simp [checkedAdd] at hadd
            omega
          simp [hu]
  | increaseReward amount =>
      simp only [Bid.applyOp, Bid.increase_reward]
      cases checkedAdd b.reward amount <;> simp
  | zeroReward => simp [Bid.applyOp, Bid.zero_reward]
  | withDelegationRate rate => simp [Bid.applyOp, Bid.with_delegation_rate]
  | unlockAt t =>
      simp only [Bid.applyOp, Bid.unlock]
      cases hr : b.release_timestamp_millis with
      | none => simp
      | some r => by_cases hlt : t < r <;> simp [hlt]
  | totalStakedAmount => exact Nat.le_refl _

/-- Witness for C9: the locked sample bid keeps its stake when a decrease
is attempted. -/
theorem locked_stake_never_decreases_witness :
    sampleBid.is_locked = true ∧
      sampleBid.staked_amount ≤
        (sampleBid.applyOp (Op.decreaseStake 50)).staked_amount :=
  ⟨by decide,
   locked_stake_never_decreases sampleBid (Op.decreaseStake 50) (by decide)⟩

/-- Claim C10: each mutator touches only its named field: `decrease_stake` and
`increase_stake` modify only `staked_amount`; `increase_reward` and
`zero_reward` only `reward`; `with_delegation_rate` only
`delegation_rate`; `unlock` only the release timestamp; and in every case
`bonding_purse` and the delegators map are unchanged. -/
theorem mutator_frame_conditions (b : Bid) (amount rate t : Nat) :
    ((b.decrease_stake amount).2.bonding_purse = b.bonding_purse ∧
      (b.decrease_stake amount).2.delegation_rate = b.delegation_rate ∧
      (b.decrease_stake amount).2.release_timestamp_millis =
        b.release_timestamp_millis ∧
      (b.decrease_stake amount).2.delegators = b.delegators ∧
      (b.decrease_stake amount).2.reward = b.reward) ∧
    ((b.increase_stake amount).2.bonding_purse = b.bonding_purse ∧
      (b.increase_stake amount).2.delegation_rate = b.delegation_rate ∧
      (b.increase_stake amount).2.release_timestamp_millis =
        b.release_timestamp_millis ∧
      (b.increase_stake amount).2.delegators = b.delegators ∧
      (b.increase_stake amount).2.reward = b.reward) ∧
    ((b.increase_reward amount).2.bonding_purse = b.bonding_purse ∧
      (b.increase_reward amount).2.staked_amount = b.staked_amount ∧
      (b.increase_reward amount).2.delegation_rate = b.delegation_rate ∧
      (b.increase_reward amount).2.release_timestamp_millis =
        b.release_timestamp_millis ∧
      (b.increase_reward amount).2.delegators = b.delegators) ∧
    (b.zero_reward.bonding_purse = b.bonding_purse ∧
      b.zero_reward.staked_amount = b.staked_amount ∧
      b.zero_reward.delegation_rate = b.delegation_rate ∧
      b.zero_reward.release_timestamp_millis = b.release_timestamp_millis ∧
      b.zero_reward.delegators = b.delegators) ∧
    ((b.with_delegation_rate rate).bonding_purse = b.bonding_purse ∧
      (b.with_delegation_rate rate).staked_amount = b.staked_amount ∧
      (b.with_delegation_rate rate).release_timestamp_millis =
        b.release_timestamp_millis ∧
      (b.with_delegation_rate rate).delegators = b.delegators ∧
      (b.with_delegation_rate rate).reward = b.reward) ∧
    ((b.unlock t).2.bonding_purse = b.bonding_purse ∧
      (b.unlock t).2.staked_amount = b.staked_amount ∧
      (b.unlock t).2.delegation_rate = b.delegation_rate ∧
      (b.unlock t).2.delegators = b.delegators ∧
      (b.unlock t).2.reward = b.reward) := by
  refine ⟨?_, ?_, ?_, ?_, ?_, ?_⟩
  · unfold Bid.decrease_stake
    split
    · exact ⟨rfl, rfl, rfl, rfl, rfl⟩
    · cases checkedSub b.staked_amount amount <;>
        exact ⟨rfl, rfl, rfl, rfl, rfl⟩
  · unfold Bid.increase_stake
    cases checkedAdd b.staked_amount amount <;>
      exact ⟨rfl, rfl, rfl, rfl, rfl⟩
  · unfold Bid.increase_reward
    cases checkedAdd b.reward amount <;> exact ⟨rfl, rfl, rfl, rfl, rfl⟩
  · exact ⟨rfl, rfl, rfl, rfl, rfl⟩
  · exact ⟨rfl, rfl, rfl, rfl, rfl⟩
  · unfold Bid.unlock
    cases b.release_timestamp_millis with
    | none => exact ⟨rfl, rfl, rfl, rfl, rfl⟩
    | some r =>
        by_cases hlt : t < r <;> simp [hlt]
